import Mathlib

/-!
# Verification of the reviewer-allocation engine

Shallow embedding of `AllocationScript_v2.py`: the identifier normalizer
(`normalize_id`), the reviewer pool builder (`load_reviewer_ids`), the
exclusion resolver (`build_exclusion_set`), the load-aware selector
(`choose_reviewers_with_minmax`) and the allocation driver (`processApp`,
`runApps`, `main`).

Modelling conventions:
* Python integers are `Int`; Python floats are modelled as exact rationals
  (`ℚ`), with `float.is_integer()` as `q.den = 1`; IEEE rounding and
  overflow-to-infinity are outside the model.  `float("nan")`/`float("inf")`
  parse in Python but are never integral, so the string-to-float parser here
  folds them into the failure case, which is observationally identical for
  `normalize_id`.
* The scalar inputs the surrounding system can hand the normalizer
  (absent / NaN / int / float / string) form the sum type `PyVal`.
* `random.sample` / `random.shuffle` draw from a seeded stream; they are
  modelled as oracle functions carried in a `SelOracle`, constrained by
  `SelOracle.OK` to produce (prefixes of) permutations, exactly the
  guarantees the Python functions provide for any seed.
* Character classes follow the ASCII behaviour of `str.strip`, `\s` and
  `\d` (the inputs of interest are ASCII CSV fields).
-/

namespace Alloc

/-- Whitespace characters stripped by Python `str.strip()` and matched by
the regex class `\s` (ASCII range). -/
def isPySpace (c : Char) : Bool :=
  c = ' ' || c = '\t' || c = '\n' || c = '\r' || c = '\x0b' || c = '\x0c'

/-- Python `str.strip()`: drop leading and trailing whitespace. -/
def pyStrip (cs : List Char) : List Char :=
  ((cs.dropWhile isPySpace).reverse.dropWhile isPySpace).reverse

/-- Value of a non-empty digit string, as read by Python `int`. -/
def digitsVal (ds : List Char) : Nat :=
  ds.foldl (fun acc c => acc * 10 + (c.toNat - 48)) 0

/-- The regex `ID_PATTERN_INT_OR_FLOAT = ^\s*(\d+)(?:\.0+)?\s*$` applied to a
character list: optional whitespace, a digit group, an optional `.0…0` tail,
optional whitespace; returns the integer value of the digit group. -/
def matchIdPattern (cs : List Char) : Option Nat :=
  let a := cs.dropWhile isPySpace
  let digits := a.takeWhile Char.isDigit
  let rest := a.drop digits.length
  if digits = [] then none
  else
    let rest2 : Option (List Char) :=
      match rest with
      | '.' :: r =>
        let zeros := r.takeWhile (fun c => decide (c = '0'))
        if zeros = [] then none else some (r.drop zeros.length)
      | r => some r
    match rest2 with
    | none => none
    | some r => if r.dropWhile isPySpace = [] then some (digitsVal digits) else none

/-- One digit run as scanned by Python's numeric-string parser: digits with
single underscores allowed between digits (PEP 515).  Returns the value, the
number of digits consumed, and the unconsumed remainder; the caller has
already checked that the first character is a digit. -/
def parseDigitsUCore (acc count : Nat) : List Char → Nat × Nat × List Char
  | [] => (acc, count, [])
  | c :: rest =>
    if c.isDigit then parseDigitsUCore (acc * 10 + (c.toNat - 48)) (count + 1) rest
    else if c = '_' then
      match rest with
      | d :: rest2 =>
        if d.isDigit then parseDigitsUCore (acc * 10 + (d.toNat - 48)) (count + 1) rest2
        else (acc, count, c :: rest)
      | [] => (acc, count, c :: rest)
    else (acc, count, c :: rest)

/-- A digit run starting at the head of the input, or `none` if the input
does not start with a digit. -/
def parseDigitsU (cs : List Char) : Option (Nat × Nat × List Char) :=
  match cs with
  | [] => none
  | c :: rest =>
    if c.isDigit then some (parseDigitsUCore (c.toNat - 48) 1 rest) else none

/-- The rational value `sign * (ip + fp / 10^fc) * 10^e` denoted by a parsed
numeric string (integer part, fraction digits with their count, exponent),
written as one exact fraction `sign * (ip * 10^fc + fp) * 10^e / 10^fc`. -/
def mkVal (sgn : Int) (ip fp : Nat) (fc : Nat) (e : Int) : ℚ :=
  let num : Int := sgn * ((ip : Int) * (10 : Int) ^ fc + (fp : Int))
  if 0 ≤ e then mkRat (num * (10 : Int) ^ e.toNat) ((10 : Nat) ^ fc)
  else mkRat num ((10 : Nat) ^ fc * (10 : Nat) ^ (-e).toNat)

/-- Exponent-and-end phase of the Python `float()` string grammar: an
optional `e`/`E` exponent with optional sign, then trailing whitespace. -/
def pyFloatFinish (sgn : Int) (ip fp : Nat) (fc : Nat) (rest : List Char) : Option ℚ :=
  match rest with
  | [] => some (mkVal sgn ip fp fc 0)
  | c :: r1 =>
    if c = 'e' ∨ c = 'E' then
      let se : Int × List Char :=
        match r1 with
        | '+' :: r => (1, r)
        | '-' :: r => (-1, r)
        | r => (1, r)
      match parseDigitsU se.2 with
      | some (ev, _, r3) =>
        if r3.dropWhile isPySpace = [] then some (mkVal sgn ip fp fc (se.1 * ev)) else none
      | none => none
    else if (c :: r1).dropWhile isPySpace = [] then some (mkVal sgn ip fp fc 0) else none

/-- Python `float()` applied to a string, under the exact-rational model:
optional whitespace and sign, a mantissa `digits[.digits]` or `.digits`
(with PEP 515 underscores), an optional exponent, trailing whitespace.
Returns `none` on anything that raises `ValueError` — and also on the
`inf`/`nan` keyword forms, which parse in Python but are never integral and
are therefore indistinguishable from failure to `normalize_id`. -/
def pyFloatParse (cs : List Char) : Option ℚ :=
  let a := cs.dropWhile isPySpace
  let sb : Int × List Char :=
    match a with
    | '+' :: r => (1, r)
    | '-' :: r => (-1, r)
    | r => (1, r)
  match parseDigitsU sb.2 with
  | some (ip, _, r1) =>
    match r1 with
    | '.' :: r2 =>
      match parseDigitsU r2 with
      | some (fp, fc, r3) => pyFloatFinish sb.1 ip fp fc r3
      | none => pyFloatFinish sb.1 ip 0 0 r2
    | _ => pyFloatFinish sb.1 ip 0 0 r1
  | none =>
    match sb.2 with
    | '.' :: r2 =>
      match parseDigitsU r2 with
      | some (fp, fc, r3) => pyFloatFinish sb.1 0 fp fc r3
      | none => none
    | _ => none

/-- The scalar values the surrounding system can hand `normalize_id`:
absent (`None`), float NaN, int, (finite) float, string. -/
inductive PyVal where
  | none
  | nan
  | int (n : Int)
  | float (q : ℚ)
  | str (s : String)

/-- The part of `normalize_id` that runs after the empty check, on the
comma-stripped text: regex match first, then the `float()` fallback with
the `is_integer()` test. -/
def parseIdNoCommas (u : List Char) : Option Int :=
  match matchIdPattern u with
  | some n => some (n : Int)
  | Option.none =>
    match pyFloatParse u with
    | some q => if q.den = 1 then some q.num else Option.none
    | Option.none => Option.none

/-- `normalize_id(val)` (lines 30–52): `None`/NaN → none; int passed
through; float accepted iff integral; otherwise stringify, strip, reject
empty, delete every comma, and run `parseIdNoCommas`. -/
def normalize_id : PyVal → Option Int
  | PyVal.none => Option.none
  | PyVal.nan => Option.none
  | PyVal.int n => some n
  | PyVal.float q => if q.den = 1 then some q.num else Option.none
  | PyVal.str s =>
    let t := pyStrip s.toList
    if t = [] then Option.none
    else parseIdNoCommas (t.filter (fun c => !decide (c = ',')))

/-- First-occurrence deduplication with an accumulator of already-seen ids
(the `seen`/`uniq` loop of `load_reviewer_ids`). -/
def dedupFirstAux (seen : List Int) : List Int → List Int
  | [] => []
  | r :: rest =>
    if r ∈ seen then dedupFirstAux seen rest
    else r :: dedupFirstAux (r :: seen) rest

/-- Deduplication preserving first occurrences. -/
def dedupFirst (l : List Int) : List Int := dedupFirstAux [] l

/-- `load_reviewer_ids` (lines 54–72): first cell of each non-empty CSV row,
normalized, `None`s dropped, first-occurrence deduplication. -/
def load_reviewer_ids (rows : List (List String)) : List Int :=
  dedupFirst (rows.filterMap (fun row => row.head?.bind (fun raw => normalize_id (PyVal.str raw))))

/-! ## Configuration constants (lines 18–26) -/

def ASSIGNMENTS_PER_APPLICATION : Nat := 3
def MAX_ASSIGNMENTS_PER_REVIEWER : Int := 5
def MIN_ASSIGNMENTS_PER_REVIEWER : Int := 3
def EXCLUSION_COL_CANDIDATES : List String := ["Reviewer 1", "Reviewer 2", "Reviewer 3"]

/-! ## Exclusion resolver -/

/-- A pandas application row, as the driver reads it: a lookup from column
name to scalar value (`row.get` yields `None`, i.e. `PyVal.none`, for an
absent column). -/
structure AppRow where
  get : String → PyVal

/-- `get_exclusion_cols` (lines 74–75): the candidate exclusion columns
present in the table schema. -/
def get_exclusion_cols (columns : List String) : List String :=
  EXCLUSION_COL_CANDIDATES.filter (fun c => decide (c ∈ columns))

/-- `build_exclusion_set` (lines 77–84): normalize each exclusion column's
value and collect the non-`None` results into a set (modelled as a
first-occurrence-deduplicated list; only membership and cardinality of the
set are ever consumed). -/
def build_exclusion_set (row : AppRow) (exclusion_cols : List String) : List Int :=
  dedupFirst (exclusion_cols.filterMap (fun col => normalize_id (row.get col)))

/-! ## Load-aware selector -/

/-- The randomness drawn from the run's seeded stream during one selector
invocation: `random.sample` and the two `random.shuffle`s.  Their defining
guarantees (for any seed) are captured by `SelOracle.OK` below. -/
structure SelOracle where
  sample : List Int → Nat → List Int
  shuffleU : List Int → List Int
  shuffleA : List Int → List Int

/-- `random.sample(l, n)` returns `n` distinct positions of `l` in some
order: equivalently, a length-`n` prefix of some permutation of `l`. -/
def SampleSpec (f : List Int → Nat → List Int) : Prop :=
  ∀ l n, ∃ l2 : List Int, l2.Perm l ∧ f l n = l2.take n

/-- `random.shuffle` permutes its list. -/
def ShuffleSpec (g : List Int → List Int) : Prop :=
  ∀ l, (g l).Perm l

/-- The guarantees Python's `random.sample`/`random.shuffle` give for any
seed. -/
def SelOracle.OK (o : SelOracle) : Prop :=
  SampleSpec o.sample ∧ ShuffleSpec o.shuffleU ∧ ShuffleSpec o.shuffleA

/-- Step 1 of the selector (lines 107–111): the hard max-load cap, keeping
only reviewers with `loads.get(rid, 0) < max_load` when a cap is set. -/
def cappedPool (eligible_pool : List Int) (loads : Int → Int) (max_load : Option Int) : List Int :=
  match max_load with
  | Option.some m => eligible_pool.filter (fun rid => decide (loads rid < m))
  | Option.none => eligible_pool

/-- The under-minimum partition (line 121). -/
def underPool (pool : List Int) (loads : Int → Int) (ml : Int) : List Int :=
  pool.filter (fun rid => decide (loads rid < ml))

/-- The at-or-above-minimum partition (line 122). -/
def abovePool (pool : List Int) (loads : Int → Int) (ml : Int) : List Int :=
  pool.filter (fun rid => decide (ml ≤ loads rid))

/-- Steps 3–4 of the selector (lines 129–141) on the already-shuffled
partitions: take `min(k, len(under))` from the under-minimum group, then, if
still short and the other group is non-empty, fill from it. -/
def minmaxPick (uS aS : List Int) (k : Nat) : List Int :=
  if 0 < k - min k uS.length ∧ aS ≠ [] then
    uS.take (min k uS.length) ++ aS.take (min (k - min k uS.length) aS.length)
  else uS.take (min k uS.length)

/-- `choose_reviewers_with_minmax` (lines 93–141). -/
def choose_reviewers_with_minmax (o : SelOracle) (eligible_pool : List Int) (k : Nat)
    (loads : Int → Int) (min_load max_load : Option Int) : List Int :=
  if cappedPool eligible_pool loads max_load = [] then []
  else
    match min_load with
    | Option.none =>
      o.sample (cappedPool eligible_pool loads max_load)
        (min k (cappedPool eligible_pool loads max_load).length)
    | Option.some ml =>
      if ml ≤ 0 then
        o.sample (cappedPool eligible_pool loads max_load)
          (min k (cappedPool eligible_pool loads max_load).length)
      else
        minmaxPick
          (o.shuffleU (underPool (cappedPool eligible_pool loads max_load) loads ml))
          (o.shuffleA (abovePool (cappedPool eligible_pool loads max_load) loads ml))
          k

/-! ## Allocation driver -/

/-- A non-fatal warning (lines 194–198), kept structured: the application
id, the number of reviewers obtained, and the number needed. -/
structure Warning where
  appId : PyVal
  got : Nat
  needed : Nat

/-- One output record (lines 209–215).  An empty-string reviewer slot is
modelled as `Option.none`. -/
structure OutRow where
  appId : PyVal
  assigned : List (Option Int)
  excludedCount : Nat
  eligiblePoolSize : Nat
  usedFallback : Bool

/-- The driver's mutable state: the load table (a total map with the
`dict.get(rid, 0)` default) plus the accumulated output rows and warnings. -/
structure DriverState where
  loads : Int → Int
  outputRows : List OutRow
  warnings : List Warning

/-- The fatal abort conditions of `main` (lines 152–153, 167–168,
200–203). -/
inductive FatalError where
  | missingAppIdColumn
  | noReviewerIds
  | conflict (appId : PyVal) (conflicting : List Int)

/-- The eligible pool of one application (line 184): the shuffled global
pool minus the application's exclusion set, order preserved. -/
def eligibleOf (global : List Int) (row : AppRow) (ecols : List String) : List Int :=
  global.filter (fun rid => !decide (rid ∈ build_exclusion_set row ecols))

/-- The selection made for one application (lines 186–192). -/
def picksOf (o : SelOracle) (global : List Int) (loads : Int → Int) (row : AppRow)
    (ecols : List String) (k : Nat) (minL maxL : Option Int) : List Int :=
  choose_reviewers_with_minmax o (eligibleOf global row ecols) k loads minL maxL

/-- The commit step (lines 205–207): `loads[rid] = loads.get(rid, 0) + 1`
for each selected reviewer in order. -/
def commitLoads (loads : Int → Int) (picks : List Int) : Int → Int :=
  picks.foldl (fun ld rid => fun r => if r = rid then ld rid + 1 else ld r) loads

/-- The output record built for one application (lines 209–215): `k` slots
holding `picks[i]` where present and the empty string otherwise. -/
def outRowOf (appId : PyVal) (picks excluded eligible : List Int) (k : Nat) : OutRow :=
  { appId := appId
    assigned := (List.range k).map (fun i => picks[i]?)
    excludedCount := excluded.length
    eligiblePoolSize := eligible.length
    usedFallback := decide (picks.length < k) }

/-- The committed state after one application when no conflict fires:
warning appended iff the selection is short, loads incremented, output row
appended. -/
def stepState (o : SelOracle) (global : List Int) (k : Nat) (minL maxL : Option Int)
    (st : DriverState) (row : AppRow) (ecols : List String) : DriverState :=
  { loads := commitLoads st.loads (picksOf o global st.loads row ecols k minL maxL)
    outputRows := st.outputRows ++
      [outRowOf (row.get "Application ID") (picksOf o global st.loads row ecols k minL maxL)
        (build_exclusion_set row ecols) (eligibleOf global row ecols) k]
    warnings :=
      if (picksOf o global st.loads row ecols k minL maxL).length < k then
        st.warnings ++ [⟨row.get "Application ID",
          (picksOf o global st.loads row ecols k minL maxL).length, k⟩]
      else st.warnings }

/-- One iteration of the driver loop (lines 179–215): resolve exclusions,
select, warn on shortfall, abort on any selected-∩-excluded conflict
(`raise RuntimeError`), otherwise commit loads and emit the output row. -/
def processApp (o : SelOracle) (global : List Int) (k : Nat) (minL maxL : Option Int)
    (st : DriverState) (row : AppRow) (ecols : List String) : Except FatalError DriverState :=
  if (picksOf o global st.loads row ecols k minL maxL).any
      (fun r => decide (r ∈ build_exclusion_set row ecols)) then
    Except.error (FatalError.conflict (row.get "Application ID")
      (dedupFirst ((picksOf o global st.loads row ecols k minL maxL).filter
        (fun r => decide (r ∈ build_exclusion_set row ecols)))))
  else Except.ok (stepState o global k minL maxL st row ecols)

/-- The driver loop over the applications in input order; the index selects
the per-iteration randomness from the run's stream. -/
def runApps (oracles : Nat → SelOracle) (global : List Int) (k : Nat) (minL maxL : Option Int)
    (ecols : List String) : Nat → DriverState → List AppRow → Except FatalError DriverState
  | _, st, [] => Except.ok st
  | i, st, row :: rest =>
    match processApp (oracles i) global k minL maxL st row ecols with
    | Except.error e => Except.error e
    | Except.ok st' => runApps oracles global k minL maxL ecols (i + 1) st' rest

/-- The applicants table: its schema and its rows. -/
structure ApplicantsTable where
  columns : List String
  rows : List AppRow

/-- `main` (lines 143–227): check the required column, load and deduplicate
the reviewer ids (fatal if none), shuffle the pool once, zero the load
table, and run the per-application loop with the configured constants.  On
success the final state (output rows, load table, warnings) stands for what
the script writes and prints. -/
def main (oracles : Nat → SelOracle) (poolShuffle : List Int → List Int)
    (df : ApplicantsTable) (reviewerRows : List (List String)) : Except FatalError DriverState :=
  if "Application ID" ∈ df.columns then
    if load_reviewer_ids reviewerRows = [] then Except.error FatalError.noReviewerIds
    else
      runApps oracles (poolShuffle (load_reviewer_ids reviewerRows))
        ASSIGNMENTS_PER_APPLICATION
        (Option.some MIN_ASSIGNMENTS_PER_REVIEWER) (Option.some MAX_ASSIGNMENTS_PER_REVIEWER)
        (get_exclusion_cols df.columns) 0
        ⟨fun _ => 0, [], []⟩ df.rows
  else Except.error FatalError.missingAppIdColumn

/-! ## Concrete oracles and fixtures (used to instantiate the theorems) -/

/-- The trivial lawful oracle: sampling takes a prefix, shuffling is the
identity permutation. -/
def idOracle : SelOracle := ⟨fun l n => l.take n, id, id⟩

/-- A stream of trivial lawful oracles. -/
def idOracles : Nat → SelOracle := fun _ => idOracle

/-- An unlawful oracle whose sampler ignores its input: used to exhibit the
driver's conflict check firing. -/
def badOracle : SelOracle := ⟨fun _ _ => [1], id, id⟩

/-- A row excluding reviewer 1 via the `Reviewer 1` column. -/
def rowExcl1 : AppRow :=
  ⟨fun c => if c = "Application ID" then PyVal.int 100
            else if c = "Reviewer 1" then PyVal.int 1 else PyVal.none⟩

/-- A row with no exclusions. -/
def rowNoExcl : AppRow := ⟨fun _ => PyVal.none⟩

/-- The zero-loads empty driver state. -/
def st0 : DriverState := ⟨fun _ => 0, [], []⟩

/-- A load table giving reviewer 3 one assignment and everyone else none. -/
def loads1 : Int → Int := fun r => if r = 3 then 1 else 0

/-- A well-formed applicants table holding `rowExcl1`. -/
def df0 : ApplicantsTable := ⟨["Application ID", "Reviewer 1"], [rowExcl1]⟩

/-- An applicants table lacking the required `Application ID` column. -/
def dfNoCol : ApplicantsTable := ⟨["Reviewer 1"], []⟩

/-- A well-formed applicants table with no rows. -/
def dfEmptyRows : ApplicantsTable := ⟨["Application ID"], []⟩

/-- A reviewer CSV yielding the pool `[1, 2]`. -/
def rrows0 : List (List String) := [["1"], ["2"]]

/-! ## Helper lemmas -/

theorem idOracle_ok : idOracle.OK :=
  ⟨fun l _ => ⟨l, List.Perm.refl l, rfl⟩, fun l => List.Perm.refl l, fun l => List.Perm.refl l⟩

theorem cappedPool_subset (pool : List Int) (loads : Int → Int) (maxL : Option Int) :
    cappedPool pool loads maxL ⊆ pool := by
  cases maxL with
  | none => exact fun x hx => hx
  | some m => exact (List.filter_sublist pool).subset

theorem mem_cappedPool_lt {pool : List Int} {loads : Int → Int} {M r : Int}
    (h : r ∈ cappedPool pool loads (Option.some M)) : loads r < M := by
  simp only [cappedPool, List.mem_filter, decide_eq_true_eq] at h
  exact h.2

theorem cappedPool_nodup {pool : List Int} (loads : Int → Int) (maxL : Option Int)
    (h : pool.Nodup) : (cappedPool pool loads maxL).Nodup := by
  cases maxL with
  | none => exact h
  | some m => exact List.Nodup.filter _ h

theorem underPool_subset (pool : List Int) (loads : Int → Int) (ml : Int) :
    underPool pool loads ml ⊆ pool := (List.filter_sublist pool).subset

theorem abovePool_subset (pool : List Int) (loads : Int → Int) (ml : Int) :
    abovePool pool loads ml ⊆ pool := (List.filter_sublist pool).subset

theorem mem_underPool {pool : List Int} {loads : Int → Int} {ml r : Int} :
    r ∈ underPool pool loads ml ↔ r ∈ pool ∧ loads r < ml := by
  simp [underPool, List.mem_filter]

theorem mem_abovePool {pool : List Int} {loads : Int → Int} {ml r : Int} :
    r ∈ abovePool pool loads ml ↔ r ∈ pool ∧ ml ≤ loads r := by
  simp [abovePool, List.mem_filter]

theorem underPool_append_abovePool_perm (pool : List Int) (loads : Int → Int) (ml : Int) :
    (underPool pool loads ml ++ abovePool pool loads ml).Perm pool := by
  have hq : abovePool pool loads ml =
      pool.filter (fun rid => !decide (loads rid < ml)) := by
    apply List.filter_congr
    intro x _
    by_cases h : loads x < ml
    · simp [h, not_le.mpr h]
    · simp [h, not_lt.mp h]
  rw [underPool, hq]
  exact List.filter_append_perm _ pool

theorem underPool_disjoint_abovePool (pool : List Int) (loads : Int → Int) (ml : Int) :
    (underPool pool loads ml).Disjoint (abovePool pool loads ml) := by
  intro a ha hb
  rw [mem_underPool] at ha
  rw [mem_abovePool] at hb
  omega

theorem minmaxPick_subset {uS aS : List Int} {k : Nat} {x : Int}
    (h : x ∈ minmaxPick uS aS k) : x ∈ uS ∨ x ∈ aS := by
  unfold minmaxPick at h
  split at h
  · rcases List.mem_append.mp h with h' | h'
    · exact Or.inl (List.take_subset _ _ h')
    · exact Or.inr (List.take_subset _ _ h')
  · exact Or.inl (List.take_subset _ _ h)

theorem minmaxPick_length (uS aS : List Int) (k : Nat) :
    (minmaxPick uS aS k).length ≤ k := by
  unfold minmaxPick
  split
  · simp only [List.length_append, List.length_take]
    omega
  · simp only [List.length_take]
    omega

theorem minmaxPick_nodup {uS aS : List Int} (k : Nat) (hu : uS.Nodup) (ha : aS.Nodup)
    (hd : uS.Disjoint aS) : (minmaxPick uS aS k).Nodup := by
  unfold minmaxPick
  split
  · refine List.Nodup.append ((List.take_sublist _ _).nodup hu)
      ((List.take_sublist _ _).nodup ha) ?_
    intro x hx hx'
    exact hd (List.take_subset _ _ hx) (List.take_subset _ _ hx')
  · exact (List.take_sublist _ _).nodup hu

theorem minmaxPick_eq_append {uS aS : List Int} {k : Nat}
    (h : uS.length + aS.length ≤ k) : minmaxPick uS aS k = uS ++ aS := by
  unfold minmaxPick
  have htake : min k uS.length = uS.length := by omega
  rw [htake]
  split
  · rename_i hcond
    have h2 : min (k - uS.length) aS.length = aS.length := by omega
    rw [List.take_length, h2, List.take_length]
  · rename_i hcond
    have ha : aS = [] := by
      rcases not_and_or.mp hcond with h' | h'
      · exact List.length_eq_zero.mp (by omega)
      · exact not_not.mp h'
    rw [List.take_length, ha, List.append_nil]

theorem minmaxPick_of_le_under {uS aS : List Int} {k : Nat}
    (h : k ≤ uS.length) : minmaxPick uS aS k = uS.take k := by
  unfold minmaxPick
  have htake : min k uS.length = k := by omega
  rw [htake]
  split
  · rename_i hcond
    omega
  · rfl

theorem choose_none_eq (o : SelOracle) (pool : List Int) (k : Nat) (loads : Int → Int)
    (maxL : Option Int) :
    choose_reviewers_with_minmax o pool k loads Option.none maxL =
      if cappedPool pool loads maxL = [] then []
      else o.sample (cappedPool pool loads maxL)
        (min k (cappedPool pool loads maxL).length) := rfl

theorem choose_some_eq (o : SelOracle) (pool : List Int) (k : Nat) (loads : Int → Int)
    (ml : Int) (maxL : Option Int) :
    choose_reviewers_with_minmax o pool k loads (Option.some ml) maxL =
      if cappedPool pool loads maxL = [] then []
      else if ml ≤ 0 then
        o.sample (cappedPool pool loads maxL) (min k (cappedPool pool loads maxL).length)
      else
        minmaxPick (o.shuffleU (underPool (cappedPool pool loads maxL) loads ml))
          (o.shuffleA (abovePool (cappedPool pool loads maxL) loads ml)) k := rfl

theorem sample_spec_subset {f : List Int → Nat → List Int} (hf : SampleSpec f)
    (l : List Int) (n : Nat) : f l n ⊆ l := by
  obtain ⟨l2, hperm, heq⟩ := hf l n
  rw [heq]
  exact (List.take_subset _ _).trans hperm.subset

theorem sample_spec_length {f : List Int → Nat → List Int} (hf : SampleSpec f)
    (l : List Int) (n : Nat) : (f l n).length = min n l.length := by
  obtain ⟨l2, hperm, heq⟩ := hf l n
  rw [heq, List.length_take, hperm.length_eq]

theorem sample_spec_nodup {f : List Int → Nat → List Int} (hf : SampleSpec f)
    {l : List Int} (n : Nat) (hl : l.Nodup) : (f l n).Nodup := by
  obtain ⟨l2, hperm, heq⟩ := hf l n
  rw [heq]
  exact (List.take_sublist _ _).nodup (hl.perm hperm.symm)

theorem sample_spec_perm {f : List Int → Nat → List Int} (hf : SampleSpec f)
    {l : List Int} {n : Nat} (hn : l.length ≤ n) : (f l n).Perm l := by
  obtain ⟨l2, hperm, heq⟩ := hf l n
  rw [heq, List.take_of_length_le (by rw [hperm.length_eq]; exact hn)]
  exact hperm

theorem choose_subset {o : SelOracle} (hok : o.OK) (pool : List Int) (k : Nat)
    (loads : Int → Int) (minL maxL : Option Int) :
    choose_reviewers_with_minmax o pool k loads minL maxL ⊆ cappedPool pool loads maxL := by
  cases minL with
  | none =>
    rw [choose_none_eq]
    split_ifs
    · exact List.nil_subset _
    · exact sample_spec_subset hok.1 _ _
  | some ml =>
    rw [choose_some_eq]
    split_ifs
    · exact List.nil_subset _
    · exact sample_spec_subset hok.1 _ _
    · intro x hx
      rcases minmaxPick_subset hx with h | h
      · exact underPool_subset _ loads ml ((hok.2.1 _).mem_iff.mp h)
      · exact abovePool_subset _ loads ml ((hok.2.2 _).mem_iff.mp h)

theorem choose_length {o : SelOracle} (hok : o.OK) (pool : List Int) (k : Nat)
    (loads : Int → Int) (minL maxL : Option Int) :
    (choose_reviewers_with_minmax o pool k loads minL maxL).length ≤ k := by
  cases minL with
  | none =>
    rw [choose_none_eq]
    split_ifs
    · simp
    · rw [sample_spec_length hok.1]
      omega
  | some ml =>
    rw [choose_some_eq]
    split_ifs
    · simp
    · rw [sample_spec_length hok.1]
      omega
    · exact minmaxPick_length _ _ k

theorem choose_nodup {o : SelOracle} (hok : o.OK) {pool : List Int} (k : Nat)
    (loads : Int → Int) (minL maxL : Option Int) (hpool : pool.Nodup) :
    (choose_reviewers_with_minmax o pool k loads minL maxL).Nodup := by
  have hcap : (cappedPool pool loads maxL).Nodup := cappedPool_nodup loads maxL hpool
  cases minL with
  | none =>
    rw [choose_none_eq]
    split_ifs
    · exact List.nodup_nil
    · exact sample_spec_nodup hok.1 _ hcap
  | some ml =>
    rw [choose_some_eq]
    split_ifs
    · exact List.nodup_nil
    · exact sample_spec_nodup hok.1 _ hcap
    · refine minmaxPick_nodup k ?_ ?_ ?_
      · exact ((List.Nodup.filter _ hcap).perm (hok.2.1 _).symm)
      · exact ((List.Nodup.filter _ hcap).perm (hok.2.2 _).symm)
      · intro a ha hb
        exact underPool_disjoint_abovePool (cappedPool pool loads maxL) loads ml
          ((hok.2.1 _).mem_iff.mp ha) ((hok.2.2 _).mem_iff.mp hb)

theorem choose_load_lt {o : SelOracle} (hok : o.OK) {pool : List Int} {k : Nat}
    {loads : Int → Int} {minL : Option Int} {M r : Int}
    (hr : r ∈ choose_reviewers_with_minmax o pool k loads minL (Option.some M)) :
    loads r < M :=
  mem_cappedPool_lt (choose_subset hok pool k loads minL (Option.some M) hr)

theorem choose_perm_capped {o : SelOracle} (hok : o.OK) (pool : List Int) (k : Nat)
    (loads : Int → Int) (minL maxL : Option Int)
    (hk : (cappedPool pool loads maxL).length ≤ k) :
    (choose_reviewers_with_minmax o pool k loads minL maxL).Perm
      (cappedPool pool loads maxL) := by
  have hmin : min k (cappedPool pool loads maxL).length =
      (cappedPool pool loads maxL).length := by omega
  cases minL with
  | none =>
    rw [choose_none_eq]
    split_ifs with h
    · rw [h]
    · rw [hmin]
      exact sample_spec_perm hok.1 le_rfl
  | some ml =>
    rw [choose_some_eq]
    split_ifs with h h2
    · rw [h]
    · rw [hmin]
      exact sample_spec_perm hok.1 le_rfl
    · have hu := hok.2.1 (underPool (cappedPool pool loads maxL) loads ml)
      have ha := hok.2.2 (abovePool (cappedPool pool loads maxL) loads ml)
      have hsplit := (underPool_append_abovePool_perm (cappedPool pool loads maxL)
        loads ml).length_eq
      rw [List.length_append] at hsplit
      have hlen : (o.shuffleU (underPool (cappedPool pool loads maxL) loads ml)).length +
          (o.shuffleA (abovePool (cappedPool pool loads maxL) loads ml)).length ≤ k := by
        rw [hu.length_eq, ha.length_eq]
        omega
      rw [minmaxPick_eq_append hlen]
      exact ((hu.append ha).trans
        (underPool_append_abovePool_perm (cappedPool pool loads maxL) loads ml))

theorem choose_soft_min {o : SelOracle} (hok : o.OK) (pool : List Int) (k : Nat)
    (loads : Int → Int) (maxL : Option Int) {ml : Int} (hml : ¬ ml ≤ 0)
    (hk : k ≤ (underPool (cappedPool pool loads maxL) loads ml).length) :
    ∀ r ∈ choose_reviewers_with_minmax o pool k loads (Option.some ml) maxL,
      r ∈ underPool (cappedPool pool loads maxL) loads ml := by
  intro r hr
  rw [choose_some_eq, if_neg hml] at hr
  by_cases h : cappedPool pool loads maxL = []
  · rw [if_pos h] at hr
    cases hr
  · rw [if_neg h] at hr
    have hu := hok.2.1 (underPool (cappedPool pool loads maxL) loads ml)
    rw [minmaxPick_of_le_under (by rw [hu.length_eq]; exact hk)] at hr
    exact hu.mem_iff.mp (List.take_subset _ _ hr)

theorem commitLoads_not_mem {picks : List Int} {r : Int} (loads : Int → Int)
    (hr : r ∉ picks) : commitLoads loads picks r = loads r := by
  induction picks generalizing loads with
  | nil => rfl
  | cons p rest ih =>
    have hrp : r ≠ p := fun h => hr (h ▸ List.mem_cons_self p rest)
    have hrr : r ∉ rest := fun h => hr (List.mem_cons_of_mem p h)
    show commitLoads (fun x => if x = p then loads p + 1 else loads x) rest r = loads r
    rw [ih _ hrr]
    simp [hrp]

theorem commitLoads_mem {picks : List Int} {r : Int} (loads : Int → Int)
    (hnd : picks.Nodup) (hr : r ∈ picks) : commitLoads loads picks r = loads r + 1 := by
  induction picks generalizing loads with
  | nil => cases hr
  | cons p rest ih =>
    have hnd' := List.nodup_cons.mp hnd
    by_cases hrp : r = p
    · subst hrp
      show commitLoads (fun x => if x = r then loads r + 1 else loads x) rest r = loads r + 1
      rw [commitLoads_not_mem _ hnd'.1]
      simp
    · have hrr : r ∈ rest := (List.mem_cons.mp hr).resolve_left hrp
      show commitLoads (fun x => if x = p then loads p + 1 else loads x) rest r = loads r + 1
      rw [ih _ hnd'.2 hrr]
      simp [hrp]

theorem commitLoads_mono (picks : List Int) (loads : Int → Int) (r : Int) :
    loads r ≤ commitLoads loads picks r := by
  induction picks generalizing loads with
  | nil => exact le_rfl
  | cons p rest ih =>
    show loads r ≤ commitLoads (fun x => if x = p then loads p + 1 else loads x) rest r
    refine le_trans ?_ (ih _)
    by_cases h : r = p
    · subst h
      simp
    · simp [h]

theorem eligibleOf_subset (global : List Int) (row : AppRow) (ecols : List String) :
    eligibleOf global row ecols ⊆ global := (List.filter_sublist global).subset

theorem mem_eligibleOf {global : List Int} {row : AppRow} {ecols : List String} {r : Int} :
    r ∈ eligibleOf global row ecols ↔ r ∈ global ∧ r ∉ build_exclusion_set row ecols := by
  simp [eligibleOf, List.mem_filter]

theorem eligibleOf_nodup {global : List Int} (row : AppRow) (ecols : List String)
    (h : global.Nodup) : (eligibleOf global row ecols).Nodup := List.Nodup.filter _ h

theorem picksOf_not_excluded {o : SelOracle} (hok : o.OK) (global : List Int)
    (loads : Int → Int) (row : AppRow) (ecols : List String) (k : Nat)
    (minL maxL : Option Int) :
    ∀ r ∈ picksOf o global loads row ecols k minL maxL,
      r ∉ build_exclusion_set row ecols := by
  intro r hr
  have hcap := choose_subset hok (eligibleOf global row ecols) k loads minL maxL hr
  have helig := cappedPool_subset (eligibleOf global row ecols) loads maxL hcap
  exact (mem_eligibleOf.mp helig).2

theorem picksOf_nodup {o : SelOracle} (hok : o.OK) {global : List Int}
    (loads : Int → Int) (row : AppRow) (ecols : List String) (k : Nat)
    (minL maxL : Option Int) (hg : global.Nodup) :
    (picksOf o global loads row ecols k minL maxL).Nodup :=
  choose_nodup hok k loads minL maxL (eligibleOf_nodup row ecols hg)

theorem processApp_eq_ok {o : SelOracle} (hok : o.OK) (global : List Int) (k : Nat)
    (minL maxL : Option Int) (st : DriverState) (row : AppRow) (ecols : List String) :
    processApp o global k minL maxL st row ecols =
      Except.ok (stepState o global k minL maxL st row ecols) := by
  unfold processApp
  rw [if_neg]
  intro hany
  rcases List.any_eq_true.mp hany with ⟨r, hr, hmem⟩
  exact picksOf_not_excluded hok global st.loads row ecols k minL maxL r hr
    (of_decide_eq_true hmem)

theorem processApp_error_iff {o : SelOracle} (global : List Int) (k : Nat)
    (minL maxL : Option Int) (st : DriverState) (row : AppRow) (ecols : List String) :
    (∃ e, processApp o global k minL maxL st row ecols = Except.error e) ↔
      ∃ r ∈ picksOf o global st.loads row ecols k minL maxL,
        r ∈ build_exclusion_set row ecols := by
  unfold processApp
  constructor
  · rintro ⟨e, he⟩
    by_cases hany : (picksOf o global st.loads row ecols k minL maxL).any
        (fun r => decide (r ∈ build_exclusion_set row ecols)) = true
    · rcases List.any_eq_true.mp hany with ⟨r, hr, hmem⟩
      exact ⟨r, hr, of_decide_eq_true hmem⟩
    · rw [if_neg hany] at he
      cases he
  · rintro ⟨r, hr, hmem⟩
    rw [if_pos (List.any_eq_true.mpr ⟨r, hr, decide_eq_true hmem⟩)]
    exact ⟨_, rfl⟩

theorem stepState_loads {o : SelOracle} (hok : o.OK) {global : List Int} (k : Nat)
    (minL maxL : Option Int) (st : DriverState) (row : AppRow) (ecols : List String)
    (hg : global.Nodup) (r : Int) :
    (stepState o global k minL maxL st row ecols).loads r =
      if r ∈ picksOf o global st.loads row ecols k minL maxL then st.loads r + 1
      else st.loads r := by
  by_cases h : r ∈ picksOf o global st.loads row ecols k minL maxL
  · rw [if_pos h]
    exact commitLoads_mem st.loads (picksOf_nodup hok st.loads row ecols k minL maxL hg) h
  · rw [if_neg h]
    exact commitLoads_not_mem st.loads h

theorem stepState_loads_le {o : SelOracle} (hok : o.OK) {global : List Int} (k : Nat)
    {minL : Option Int} {M : Int} (st : DriverState) (row : AppRow) (ecols : List String)
    (hg : global.Nodup) (hinv : ∀ r, st.loads r ≤ M) :
    ∀ r, (stepState o global k minL (Option.some M) st row ecols).loads r ≤ M := by
  intro r
  rw [stepState_loads hok k minL (Option.some M) st row ecols hg r]
  by_cases h : r ∈ picksOf o global st.loads row ecols k minL (Option.some M)
  · rw [if_pos h]
    have := choose_load_lt hok h
    omega
  · rw [if_neg h]
    exact hinv r

theorem runApps_ok {oracles : Nat → SelOracle} (hok : ∀ i, (oracles i).OK)
    (global : List Int) (k : Nat) (minL maxL : Option Int) (ecols : List String)
    (rows : List AppRow) (i : Nat) (st : DriverState) :
    ∃ st', runApps oracles global k minL maxL ecols i st rows = Except.ok st' := by
  induction rows generalizing i st with
  | nil => exact ⟨st, rfl⟩
  | cons row rest ih =>
    show ∃ st', (match processApp (oracles i) global k minL maxL st row ecols with
      | Except.error e => Except.error e
      | Except.ok st' => runApps oracles global k minL maxL ecols (i + 1) st' rest) =
        Except.ok st'
    rw [processApp_eq_ok (hok i) global k minL maxL st row ecols]
    exact ih (i + 1) _

theorem runApps_loads_le {oracles : Nat → SelOracle} (hok : ∀ i, (oracles i).OK)
    {global : List Int} (k : Nat) (minL : Option Int) {M : Int} (ecols : List String)
    (hg : global.Nodup) (rows : List AppRow) (i : Nat) (st : DriverState)
    (hinv : ∀ r, st.loads r ≤ M) {st' : DriverState}
    (hrun : runApps oracles global k minL (Option.some M) ecols i st rows = Except.ok st') :
    ∀ r, st'.loads r ≤ M := by
  induction rows generalizing i st with
  | nil =>
    cases hrun
    exact hinv
  | cons row rest ih =>
    rw [show runApps oracles global k minL (Option.some M) ecols i st (row :: rest) =
        (match processApp (oracles i) global k minL (Option.some M) st row ecols with
          | Except.error e => Except.error e
          | Except.ok st2 => runApps oracles global k minL (Option.some M) ecols (i + 1)
              st2 rest) from rfl,
      processApp_eq_ok (hok i) global k minL (Option.some M) st row ecols] at hrun
    exact ih (i + 1) _ (stepState_loads_le (hok i) k st row ecols hg hinv) hrun

theorem dedupFirstAux_nodup (seen l : List Int) :
    (dedupFirstAux seen l).Nodup ∧ ∀ r ∈ dedupFirstAux seen l, r ∉ seen := by
  induction l generalizing seen with
  | nil => exact ⟨List.nodup_nil, fun r hr => absurd hr (List.not_mem_nil r)⟩
  | cons a rest ih =>
    simp only [dedupFirstAux]
    by_cases h : a ∈ seen
    · rw [if_pos h]
      exact ih seen
    · rw [if_neg h]
      obtain ⟨hnd, hmem⟩ := ih (a :: seen)
      refine ⟨List.nodup_cons.mpr ⟨fun ha => ?_, hnd⟩, fun r hr hseen => ?_⟩
      · exact hmem a ha (List.mem_cons_self a seen)
      · rcases List.mem_cons.mp hr with rfl | hr'
        · exact h hseen
        · exact hmem r hr' (List.mem_cons_of_mem a hseen)

theorem dedupFirst_nodup (l : List Int) : (dedupFirst l).Nodup :=
  (dedupFirstAux_nodup [] l).1

/-! ## Claim theorems -/

/-- C1: for every application processed by the run, the set of reviewers
assigned to that application is disjoint from that application's exclusion
set (first conjunct, for any lawful randomness); and the driver checks this
after each selection, treating any intersection as a fatal integrity
failure (second conjunct, for arbitrary — even unlawful — randomness). -/
theorem claim_C1_assigned_disjoint_from_exclusions :
    (∀ (o : SelOracle) (global : List Int) (loads : Int → Int) (k : Nat)
        (minL maxL : Option Int) (row : AppRow) (ecols : List String), o.OK →
      ∀ r ∈ picksOf o global loads row ecols k minL maxL,
        r ∉ build_exclusion_set row ecols) ∧
    (∀ (o : SelOracle) (global : List Int) (k : Nat) (minL maxL : Option Int)
        (st : DriverState) (row : AppRow) (ecols : List String),
      (∃ r ∈ picksOf o global st.loads row ecols k minL maxL,
        r ∈ build_exclusion_set row ecols) →
      ∃ e, processApp o global k minL maxL st row ecols = Except.error e) := by
  constructor
  · intro o global loads k minL maxL row ecols hok
    exact picksOf_not_excluded hok global loads row ecols k minL maxL
  · intro o global k minL maxL st row ecols hconf
    exact (processApp_error_iff global k minL maxL st row ecols).mpr hconf

/-- Witness for C1 at concrete inputs: with the lawful prefix oracle the
selection for a row excluding reviewer 1 avoids reviewer 1; with an
unlawful oracle that returns the excluded reviewer, the driver aborts. -/
theorem claim_C1_witness :
    (∀ r ∈ picksOf idOracle [1, 2] st0.loads rowExcl1 ["Reviewer 1"] 3
        Option.none Option.none,
      r ∉ build_exclusion_set rowExcl1 ["Reviewer 1"]) ∧
    (∃ e, processApp badOracle [1, 2] 3 Option.none Option.none st0 rowExcl1
      ["Reviewer 1"] = Except.error e) := by
  constructor
  · exact claim_C1_assigned_disjoint_from_exclusions.1 idOracle [1, 2] st0.loads 3
      Option.none Option.none rowExcl1 ["Reviewer 1"] idOracle_ok
  · exact claim_C1_assigned_disjoint_from_exclusions.2 badOracle [1, 2] 3
      Option.none Option.none st0 rowExcl1 ["Reviewer 1"] ⟨1, by decide, by decide⟩

/-- C2: after each application's commit step every reviewer's load-table
entry is at most the configured maximum (first conjunct: one commit
preserves the bound); consequently the final load table of a successful run
stays within `MAX_ASSIGNMENTS_PER_REVIEWER` (second conjunct). -/
theorem claim_C2_loads_bounded :
    (∀ (o : SelOracle) (global : List Int) (k : Nat) (minL : Option Int) (M : Int)
        (st : DriverState) (row : AppRow) (ecols : List String),
      o.OK → global.Nodup → (∀ r, st.loads r ≤ M) →
      ∀ r, (stepState o global k minL (Option.some M) st row ecols).loads r ≤ M) ∧
    (∀ (oracles : Nat → SelOracle) (psh : List Int → List Int)
        (df : ApplicantsTable) (rrows : List (List String)) (st' : DriverState),
      (∀ i, (oracles i).OK) → ShuffleSpec psh →
      main oracles psh df rrows = Except.ok st' →
      ∀ r, st'.loads r ≤ MAX_ASSIGNMENTS_PER_REVIEWER) := by
  constructor
  · intro o global k minL M st row ecols hok hg hinv
    exact stepState_loads_le hok k st row ecols hg hinv
  · intro oracles psh df rrows st' hok hps hmain
    unfold main at hmain
    by_cases h1 : "Application ID" ∈ df.columns
    · rw [if_pos h1] at hmain
      by_cases h2 : load_reviewer_ids rrows = []
      · rw [if_pos h2] at hmain
        cases hmain
      · rw [if_neg h2] at hmain
        refine runApps_loads_le hok ASSIGNMENTS_PER_APPLICATION
          (Option.some MIN_ASSIGNMENTS_PER_REVIEWER) (get_exclusion_cols df.columns)
          ?_ df.rows 0 _ ?_ hmain
        · exact (dedupFirst_nodup _).perm (hps _).symm
        · intro r
          show (0 : Int) ≤ MAX_ASSIGNMENTS_PER_REVIEWER
          decide
    · rw [if_neg h1] at hmain
      cases hmain

/-- Witness for C2: one concrete commit step keeps loads at most 5, and a
concrete successful run ends with every load at most the maximum. -/
theorem claim_C2_witness :
    (∀ r, (stepState idOracle [1, 2] 3 (Option.some 3) (Option.some 5) st0 rowNoExcl
      []).loads r ≤ 5) ∧
    (∀ r, (⟨fun _ => 0, [], []⟩ : DriverState).loads r ≤ MAX_ASSIGNMENTS_PER_REVIEWER) := by
  constructor
  · exact claim_C2_loads_bounded.1 idOracle [1, 2] 3 (Option.some 3) 5 st0 rowNoExcl []
      idOracle_ok (by decide) (fun r => by show (0 : Int) ≤ 5; decide)
  · exact claim_C2_loads_bounded.2 idOracles id dfEmptyRows rrows0 ⟨fun _ => 0, [], []⟩
      (fun _ => idOracle_ok) (fun l => List.Perm.refl l) rfl

/-- C3: for every eligible pool of distinct reviewer ids, every `k`, every
load table and every min/max setting, the selector returns at most `k`
reviewers, without repetition, all members of the eligible pool, and — when
a maximum is configured — all with current load below it. -/
theorem claim_C3_selector_guarantees :
    ∀ (o : SelOracle) (pool : List Int) (k : Nat) (loads : Int → Int)
      (minL maxL : Option Int), o.OK → pool.Nodup →
      (choose_reviewers_with_minmax o pool k loads minL maxL).length ≤ k ∧
      (choose_reviewers_with_minmax o pool k loads minL maxL).Nodup ∧
      choose_reviewers_with_minmax o pool k loads minL maxL ⊆ pool ∧
      ∀ M, maxL = Option.some M →
        ∀ r ∈ choose_reviewers_with_minmax o pool k loads minL maxL, loads r < M := by
  intro o pool k loads minL maxL hok hpool
  refine ⟨choose_length hok pool k loads minL maxL,
    choose_nodup hok k loads minL maxL hpool,
    (choose_subset hok pool k loads minL maxL).trans (cappedPool_subset pool loads maxL),
    ?_⟩
  rintro M rfl r hr
  exact choose_load_lt hok hr

/-- Witness for C3 at a concrete pool, `k`, load table and bounds. -/
theorem claim_C3_witness :
    (choose_reviewers_with_minmax idOracle [1, 2, 3] 2 st0.loads (Option.some 1)
      (Option.some 5)).length ≤ 2 ∧
    (choose_reviewers_with_minmax idOracle [1, 2, 3] 2 st0.loads (Option.some 1)
      (Option.some 5)).Nodup ∧
    choose_reviewers_with_minmax idOracle [1, 2, 3] 2 st0.loads (Option.some 1)
      (Option.some 5) ⊆ [1, 2, 3] ∧
    (∀ M, (Option.some (5 : Int)) = Option.some M →
      ∀ r ∈ choose_reviewers_with_minmax idOracle [1, 2, 3] 2 st0.loads (Option.some 1)
        (Option.some 5), st0.loads r < M) :=
  claim_C3_selector_guarantees idOracle [1, 2, 3] 2 st0.loads (Option.some 1)
    (Option.some 5) idOracle_ok (by decide)

/-- C4: when the soft-minimum policy is active and the capped pool contains
both under-minimum and at-or-above-minimum reviewers, with `k` at most the
under-minimum count, the selection is drawn entirely from the under-minimum
partition. -/
theorem claim_C4_soft_min_preference :
    ∀ (o : SelOracle) (pool : List Int) (k : Nat) (loads : Int → Int)
      (ml : Int) (maxL : Option Int), o.OK → 0 < ml →
      underPool (cappedPool pool loads maxL) loads ml ≠ [] →
      abovePool (cappedPool pool loads maxL) loads ml ≠ [] →
      k ≤ (underPool (cappedPool pool loads maxL) loads ml).length →
      ∀ r ∈ choose_reviewers_with_minmax o pool k loads (Option.some ml) maxL,
        r ∈ cappedPool pool loads maxL ∧ loads r < ml := by
  intro o pool k loads ml maxL hok hml _ _ hk r hr
  exact mem_underPool.mp (choose_soft_min hok pool k loads maxL (not_le.mpr hml) hk r hr)

/-- Witness for C4: pool `[1, 2, 3]` with reviewer 3 already at the minimum
and `k = 2` equal to the under-minimum count; reviewer 1 is selected and
sits in the under-minimum partition. -/
theorem claim_C4_witness :
    (1 : Int) ∈ cappedPool [1, 2, 3] loads1 (Option.some 5) ∧ loads1 1 < 1 :=
  claim_C4_soft_min_preference idOracle [1, 2, 3] 2 loads1 1 (Option.some 5)
    idOracle_ok (by decide) (by decide) (by decide) (by decide) 1 (by decide)

/-- C6: whenever `k` is at least the size of the pool remaining after the
hard-cap filter, the selector returns the whole capped pool, in randomized
order (a permutation of it). -/
theorem claim_C6_whole_capped_pool :
    ∀ (o : SelOracle) (pool : List Int) (k : Nat) (loads : Int → Int)
      (minL maxL : Option Int), o.OK →
      (cappedPool pool loads maxL).length ≤ k →
      (choose_reviewers_with_minmax o pool k loads minL maxL).Perm
        (cappedPool pool loads maxL) :=
  fun _ pool k loads minL maxL hok hk => choose_perm_capped hok pool k loads minL maxL hk

/-- Witness for C6: `k = 5` against a two-element capped pool. -/
theorem claim_C6_witness :
    (choose_reviewers_with_minmax idOracle [1, 2] 5 st0.loads (Option.some 3)
      (Option.some 5)).Perm (cappedPool [1, 2] st0.loads (Option.some 5)) :=
  claim_C6_whole_capped_pool idOracle [1, 2] 5 st0.loads (Option.some 3)
    (Option.some 5) idOracle_ok (by decide)

/-- C5 counterexample: `normalize_id` applied to the integer `-3` returns
the negative identifier `-3` — neither `none` nor a non-negative integer —
refuting the claim that it never returns a negative identifier. -/
theorem claim_C5_counterexample :
    normalize_id (PyVal.int (-3)) = Option.some (-3) ∧
    ¬ (normalize_id (PyVal.int (-3)) = Option.none ∨
       ∃ n : Int, 0 ≤ n ∧ normalize_id (PyVal.int (-3)) = Option.some n) := by
  constructor
  · rfl
  · rintro (h | ⟨n, hn, h⟩)
    · exact Option.noConfusion (h : (Option.some (-3) : Option Int) = Option.none)
    · have h2 : (Option.some (-3) : Option Int) = Option.some n := h
      have h3 : (-3 : Int) = n := Option.some.inj h2
      omega

/-- C5 amended: for every input value (absent/NaN, integer, float, or
string) the normalizer is total and deterministic and returns either `none`
or a canonical integer; integer inputs (and integral floats) pass through
unchanged, so negative numeric inputs yield negative identifiers rather
than `none`, while absent, NaN, non-integral and unparseable inputs yield
`none`. -/
theorem claim_C5_normalizer_amended :
    (∀ n : Int, normalize_id (PyVal.int n) = Option.some n) ∧
    (∀ q : ℚ, normalize_id (PyVal.float q) =
      if q.den = 1 then Option.some q.num else Option.none) ∧
    normalize_id PyVal.none = Option.none ∧
    normalize_id PyVal.nan = Option.none ∧
    normalize_id (PyVal.str "7") = Option.some 7 ∧
    normalize_id (PyVal.str " 7 ") = Option.some 7 ∧
    normalize_id (PyVal.str "7.00") = Option.some 7 ∧
    normalize_id (PyVal.str "7.5") = Option.none ∧
    normalize_id (PyVal.str "abc") = Option.none ∧
    normalize_id (PyVal.str "") = Option.none ∧
    normalize_id (PyVal.int (-3)) = Option.some (-3) := by
  refine ⟨fun n => rfl, fun q => rfl, rfl, rfl, ?_, ?_, ?_, ?_, ?_, ?_, rfl⟩
  · decide
  · decide
  · decide
  · decide
  · decide
  · decide

/-- C7: the run aborts with a fatal error, writing no output, exactly when
the applicants table lacks the `Application ID` column, the reviewer source
yields no valid identifiers, or a committed selection contains an excluded
reviewer; under lawful randomness the conflict case cannot arise, so a run
fails precisely on the two input conditions. -/
theorem claim_C7_fatal_cases :
    (∀ (oracles : Nat → SelOracle) (psh : List Int → List Int)
        (df : ApplicantsTable) (rrows : List (List String)),
      "Application ID" ∉ df.columns →
      main oracles psh df rrows = Except.error FatalError.missingAppIdColumn) ∧
    (∀ (oracles : Nat → SelOracle) (psh : List Int → List Int)
        (df : ApplicantsTable) (rrows : List (List String)),
      "Application ID" ∈ df.columns → load_reviewer_ids rrows = [] →
      main oracles psh df rrows = Except.error FatalError.noReviewerIds) ∧
    (∀ (o : SelOracle) (global : List Int) (k : Nat) (minL maxL : Option Int)
        (st : DriverState) (row : AppRow) (ecols : List String),
      (∃ e, processApp o global k minL maxL st row ecols = Except.error e) ↔
        ∃ r ∈ picksOf o global st.loads row ecols k minL maxL,
          r ∈ build_exclusion_set row ecols) ∧
    (∀ (oracles : Nat → SelOracle) (psh : List Int → List Int)
        (df : ApplicantsTable) (rrows : List (List String)),
      (∀ i, (oracles i).OK) →
      ((∃ e, main oracles psh df rrows = Except.error e) ↔
        ("Application ID" ∉ df.columns ∨ load_reviewer_ids rrows = []))) := by
  refine ⟨?_, ?_, ?_, ?_⟩
  · intro oracles psh df rrows h1
    unfold main
    rw [if_neg h1]
  · intro oracles psh df rrows h1 h2
    unfold main
    rw [if_pos h1, if_pos h2]
  · intro o global k minL maxL st row ecols
    exact processApp_error_iff global k minL maxL st row ecols
  · intro oracles psh df rrows hok
    constructor
    · rintro ⟨e, he⟩
      by_cases h1 : "Application ID" ∈ df.columns
      · by_cases h2 : load_reviewer_ids rrows = []
        · exact Or.inr h2
        · exfalso
          unfold main at he
          rw [if_pos h1, if_neg h2] at he
          obtain ⟨st', hst⟩ := runApps_ok hok (psh (load_reviewer_ids rrows))
            ASSIGNMENTS_PER_APPLICATION (Option.some MIN_ASSIGNMENTS_PER_REVIEWER)
            (Option.some MAX_ASSIGNMENTS_PER_REVIEWER) (get_exclusion_cols df.columns)
            df.rows 0 ⟨fun _ => 0, [], []⟩
          rw [hst] at he
          cases he
      · exact Or.inl h1
    · rintro (h1 | h2)
      · exact ⟨FatalError.missingAppIdColumn, by unfold main; rw [if_neg h1]⟩
      · by_cases h1 : "Application ID" ∈ df.columns
        · exact ⟨FatalError.noReviewerIds, by unfold main; rw [if_pos h1, if_pos h2]⟩
        · exact ⟨FatalError.missingAppIdColumn, by unfold main; rw [if_neg h1]⟩

/-- Witness for C7: each abort case exhibited concretely — a table without
the required column, an empty reviewer source, a forced conflict under an
unlawful oracle, and the run-level equivalence at an erroring input. -/
theorem claim_C7_witness :
    main idOracles id dfNoCol rrows0 = Except.error FatalError.missingAppIdColumn ∧
    main idOracles id dfEmptyRows [] = Except.error FatalError.noReviewerIds ∧
    (∃ e, processApp badOracle [1, 2] 3 Option.none Option.none st0 rowExcl1
      ["Reviewer 1"] = Except.error e) ∧
    (∃ e, main idOracles id dfEmptyRows [] = Except.error e) := by
  refine ⟨?_, ?_, ?_, ?_⟩
  · exact claim_C7_fatal_cases.1 idOracles id dfNoCol rrows0 (by decide)
  · exact claim_C7_fatal_cases.2.1 idOracles id dfEmptyRows [] (by decide) rfl
  · exact (claim_C7_fatal_cases.2.2.1 badOracle [1, 2] 3 Option.none Option.none st0
      rowExcl1 ["Reviewer 1"]).mpr ⟨1, by decide, by decide⟩
  · exact (claim_C7_fatal_cases.2.2.2 idOracles id dfEmptyRows []
      (fun _ => idOracle_ok)).mpr (Or.inr rfl)

/-- C8: an application whose selection falls short of `k` yields a warning
naming the application and the shortfall, an output record whose missing
slots are empty and whose under-fill flag is set, and the step still
completes successfully. -/
theorem claim_C8_underfill_nonfatal :
    ∀ (o : SelOracle) (global : List Int) (k : Nat) (minL maxL : Option Int)
      (st : DriverState) (row : AppRow) (ecols : List String), o.OK →
      (picksOf o global st.loads row ecols k minL maxL).length < k →
      ∃ st', processApp o global k minL maxL st row ecols = Except.ok st' ∧
        st'.warnings = st.warnings ++ [⟨row.get "Application ID",
          (picksOf o global st.loads row ecols k minL maxL).length, k⟩] ∧
        ∃ out : OutRow, st'.outputRows = st.outputRows ++ [out] ∧
          out.usedFallback = true ∧
          out.assigned.length = k ∧
          ∀ i, (picksOf o global st.loads row ecols k minL maxL).length ≤ i → i < k →
            out.assigned[i]? = Option.some Option.none := by
  intro o global k minL maxL st row ecols hok hshort
  refine ⟨stepState o global k minL maxL st row ecols,
    processApp_eq_ok hok global k minL maxL st row ecols, ?_,
    outRowOf (row.get "Application ID") (picksOf o global st.loads row ecols k minL maxL)
      (build_exclusion_set row ecols) (eligibleOf global row ecols) k, rfl, ?_, ?_, ?_⟩
  · show (if (picksOf o global st.loads row ecols k minL maxL).length < k then _ else _) = _
    rw [if_pos hshort]
  · exact decide_eq_true hshort
  · show ((List.range k).map _).length = k
    rw [List.length_map, List.length_range]
  · intro i hge hlt
    show ((List.range k).map
      (fun j => (picksOf o global st.loads row ecols k minL maxL)[j]?))[i]? = _
    rw [List.getElem?_map, List.getElem?_range hlt]
    show Option.some (picksOf o global st.loads row ecols k minL maxL)[i]? = _
    rw [List.getElem?_eq_none hge]

/-- Witness for C8: a single-reviewer pool with `k = 3` under-fills and
still commits. -/
theorem claim_C8_witness :
    ∃ st', processApp idOracle [1] 3 Option.none Option.none st0 rowNoExcl [] =
        Except.ok st' ∧
      st'.warnings = st0.warnings ++ [⟨rowNoExcl.get "Application ID",
        (picksOf idOracle [1] st0.loads rowNoExcl [] 3 Option.none Option.none).length, 3⟩] ∧
      ∃ out : OutRow, st'.outputRows = st0.outputRows ++ [out] ∧
        out.usedFallback = true ∧
        out.assigned.length = 3 ∧
        ∀ i, (picksOf idOracle [1] st0.loads rowNoExcl [] 3 Option.none
            Option.none).length ≤ i → i < 3 →
          out.assigned[i]? = Option.some Option.none :=
  claim_C8_underfill_nonfatal idOracle [1] 3 Option.none Option.none st0 rowNoExcl []
    idOracle_ok (by decide)

/-- C9: the load table changes only at the driver's commit step — each
selected reviewer's entry grows by exactly one, every other entry is
unchanged, and no entry ever decreases; the selector itself, a pure
function of the load table, cannot mutate it. -/
theorem claim_C9_commit_only_mutation :
    ∀ (o : SelOracle) (global : List Int) (k : Nat) (minL maxL : Option Int)
      (st : DriverState) (row : AppRow) (ecols : List String) (st' : DriverState),
      o.OK → global.Nodup →
      processApp o global k minL maxL st row ecols = Except.ok st' →
      (∀ r ∈ picksOf o global st.loads row ecols k minL maxL,
        st'.loads r = st.loads r + 1) ∧
      (∀ r, r ∉ picksOf o global st.loads row ecols k minL maxL →
        st'.loads r = st.loads r) ∧
      (∀ r, st.loads r ≤ st'.loads r) := by
  intro o global k minL maxL st row ecols st' hok hg hstep
  rw [processApp_eq_ok hok global k minL maxL st row ecols] at hstep
  cases hstep
  refine ⟨?_, ?_, ?_⟩
  · intro r hr
    exact commitLoads_mem st.loads
      (picksOf_nodup hok st.loads row ecols k minL maxL hg) hr
  · intro r hr
    exact commitLoads_not_mem st.loads hr
  · intro r
    exact commitLoads_mono _ st.loads r

/-- Witness for C9 on a concrete step with pool `[1, 2]`. -/
theorem claim_C9_witness :
    (∀ r ∈ picksOf idOracle [1, 2] st0.loads rowNoExcl [] 3 Option.none Option.none,
      (stepState idOracle [1, 2] 3 Option.none Option.none st0 rowNoExcl []).loads r =
        st0.loads r + 1) ∧
    (∀ r, r ∉ picksOf idOracle [1, 2] st0.loads rowNoExcl [] 3 Option.none Option.none →
      (stepState idOracle [1, 2] 3 Option.none Option.none st0 rowNoExcl []).loads r =
        st0.loads r) ∧
    (∀ r, st0.loads r ≤
      (stepState idOracle [1, 2] 3 Option.none Option.none st0 rowNoExcl []).loads r) :=
  claim_C9_commit_only_mutation idOracle [1, 2] 3 Option.none Option.none st0 rowNoExcl
    [] (stepState idOracle [1, 2] 3 Option.none Option.none st0 rowNoExcl [])
    idOracle_ok (by decide) rfl

/-- C10: the normalizer deletes every comma, wherever it occurs, before any
matching or parsing, so strings that are not well-formed thousands-grouped
numbers are still accepted: `"1,2"` normalizes to `12` and `"12,34"` to
`1234` rather than to `none`. -/
theorem claim_C10_commas_deleted :
    (∀ s : String, pyStrip s.toList ≠ [] →
      normalize_id (PyVal.str s) =
        parseIdNoCommas ((pyStrip s.toList).filter (fun c => !decide (c = ',')))) ∧
    normalize_id (PyVal.str "1,2") = Option.some 12 ∧
    normalize_id (PyVal.str "12,34") = Option.some 1234 ∧
    normalize_id (PyVal.str "1,2") ≠ Option.none ∧
    normalize_id (PyVal.str ",,3,4,") = Option.some 34 := by
  refine ⟨?_, by decide, by decide, by decide, by decide⟩
  intro s h
  show (if pyStrip s.toList = [] then Option.none else _) = _
  rw [if_neg h]

/-- Witness for C10: the comma-deletion equation instantiated at the
claim's example `"1,2"`. -/
theorem claim_C10_witness :
    normalize_id (PyVal.str "1,2") =
      parseIdNoCommas ((pyStrip "1,2".toList).filter (fun c => !decide (c = ','))) :=
  claim_C10_commas_deleted.1 "1,2" (by decide)

end Alloc
